import Mathlib

/-!
Verification development for the dump978 UAT receiver core.

The definitions below are a shallow embedding of the C++ sources:
  * `src/uat_protocol.h`   — protocol and FEC constants
  * `src/demodulator.cc`   — phase differencing, sync-word matching, bit
                             slicing, the 2 Msps demodulator loop, and the
                             receiver's tail/timestamp bookkeeping
  * `src/fec.cc`           — downlink two-try and uplink deinterleaved
                             Reed-Solomon dispatch
  * `src/convert.cc`       — the CS16H table-driven atan2 index computation
  * `src/socket_input.cc`  — the raw line parser
  * `src/uat_message.h`    — RawMessage construction and type tagging

Machine integers are modelled as `Nat` (unsigned) or `Int` (signed), with
wraparound written explicitly where the C++ width matters.  The Reed-Solomon
decoder itself (`decode_rs_char` from the vendored Phil Karn fec library,
whose implementation is not part of these sources) is modelled as an
abstract parameter: theorems quantify over every decoder, so they hold in
particular for the real one.
-/

/-! ### Protocol constants, from src/uat_protocol.h -/

abbrev SYNC_BITS : Nat := 36

abbrev DOWNLINK_SYNC_WORD : Nat := 0xEACDDA4E2

abbrev UPLINK_SYNC_WORD : Nat := 0x153225B1D

abbrev DOWNLINK_SHORT_DATA_BITS : Nat := 144

abbrev DOWNLINK_SHORT_DATA_BYTES : Nat := DOWNLINK_SHORT_DATA_BITS / 8

abbrev DOWNLINK_SHORT_BITS : Nat := DOWNLINK_SHORT_DATA_BITS + 96

abbrev DOWNLINK_SHORT_BYTES : Nat := DOWNLINK_SHORT_BITS / 8

abbrev DOWNLINK_LONG_DATA_BITS : Nat := 272

abbrev DOWNLINK_LONG_DATA_BYTES : Nat := DOWNLINK_LONG_DATA_BITS / 8

abbrev DOWNLINK_LONG_BITS : Nat := 272 + 112

abbrev DOWNLINK_LONG_BYTES : Nat := DOWNLINK_LONG_BITS / 8

abbrev UPLINK_BLOCK_DATA_BITS : Nat := 576

abbrev UPLINK_BLOCK_DATA_BYTES : Nat := UPLINK_BLOCK_DATA_BITS / 8

abbrev UPLINK_BLOCK_BITS : Nat := UPLINK_BLOCK_DATA_BITS + 160

abbrev UPLINK_BLOCK_BYTES : Nat := UPLINK_BLOCK_BITS / 8

abbrev UPLINK_BLOCKS_PER_FRAME : Nat := 6

abbrev UPLINK_DATA_BITS : Nat := UPLINK_BLOCK_DATA_BITS * UPLINK_BLOCKS_PER_FRAME

abbrev UPLINK_DATA_BYTES : Nat := UPLINK_DATA_BITS / 8

abbrev UPLINK_BITS : Nat := UPLINK_BLOCK_BITS * UPLINK_BLOCKS_PER_FRAME

abbrev UPLINK_BYTES : Nat := UPLINK_BITS / 8

abbrev DOWNLINK_SHORT_ROOTS : Nat := 12

abbrev DOWNLINK_LONG_ROOTS : Nat := 14

abbrev UPLINK_BLOCK_ROOTS : Nat := 20

abbrev DOWNLINK_SHORT_PAD : Nat := 255 - DOWNLINK_SHORT_BYTES

abbrev DOWNLINK_LONG_PAD : Nat := 255 - DOWNLINK_LONG_BYTES

abbrev UPLINK_BLOCK_PAD : Nat := 255 - UPLINK_BLOCK_BYTES

/-! ### Phase differencing and sync-word matching, from src/demodulator.cc -/

/-- Source `PhaseDifference` (src/demodulator.cc lines 83-91): subtract two u16
phase samples in 32-bit signed arithmetic and fold the result into the
int16 range (the source's local `difference` variable is inlined). -/
def phaseDifference (a b : Nat) : Int :=
  if 32768 ≤ (b : Int) - (a : Int) then (b : Int) - (a : Int) - 65536
  else if (b : Int) - (a : Int) < -32768 then (b : Int) - (a : Int) + 65536
  else (b : Int) - (a : Int)

/-- Number of ones in the binary representation of a natural number
(the reference notion of population count used by the spec). -/
def popCount (n : Nat) : Nat :=
  if n = 0 then 0 else n % 2 + popCount (n / 2)
decreasing_by exact Nat.div_lt_self (Nat.pos_of_ne_zero (by assumption)) (by omega)

/-- Source `diff &= (diff - 1)` (src/demodulator.cc line 127 etc.): clear the
lowest set bit. -/
def clearLowest (n : Nat) : Nat := n &&& (n - 1)

/-- Source `SyncWordMatch` (src/demodulator.cc lines 93-148): accept when the two
36-bit words differ in at most 4 bit positions, clearing the lowest set
bit of the XOR up to four times and bailing out early (the source's
repeated destructive update of `diff` is written as nested applications). -/
def syncWordMatch (word expected : Nat) : Bool :=
  if word = expected then true
  else if clearLowest (word ^^^ expected) = 0 then true
  else if clearLowest (clearLowest (word ^^^ expected)) = 0 then true
  else if clearLowest (clearLowest (clearLowest (word ^^^ expected))) = 0 then true
  else if clearLowest (clearLowest (clearLowest (clearLowest (word ^^^ expected)))) = 0 then
    true
  else false

/-! ### FEC dispatch, from src/fec.cc

`decode_rs_char` (vendored Phil Karn library, implementation not in these
sources) is modelled as an abstract decoder: it receives the data bytes and
the erasure-position array and returns the corrected-symbol count (negative
on failure, as in `src/libs/fec/rs-common.h`) together with the possibly
modified data.  In-place mutation cannot change the buffer length, so
theorems that need it take length preservation as a hypothesis. -/

abbrev RSDecoder := List Nat → List Int → Int × List Nat

/-- Source `FEC::CorrectDownlink` (src/fec.cc lines 36-93): try the long code
first; on failure (or a zero header bit) retry the same buffer with the
short code, keeping only erasures below `DOWNLINK_SHORT_BYTES`. -/
def correctDownlink (decL decS : RSDecoder) (raw : List Nat)
    (erasures : List Nat) : Bool × List Nat × Nat :=
  if raw.length ≠ DOWNLINK_LONG_BYTES then (false, [], 0)
  else if DOWNLINK_LONG_ROOTS < erasures.length then (false, [], 0)
  else
    let corrected := erasures.foldl (fun d e => d.set e 0) raw
    let longRes := decL corrected (erasures.map fun e => (e : Int) + (DOWNLINK_LONG_PAD : Int))
    if 0 ≤ longRes.1 ∧ longRes.1 ≤ (DOWNLINK_LONG_ROOTS : Int) ∧
        (longRes.2.getD 0 0) >>> 3 ≠ 0 then
      (true, longRes.2.take DOWNLINK_LONG_DATA_BYTES, longRes.1.toNat)
    else
      let shortErasures := erasures.filter fun e => e < DOWNLINK_SHORT_BYTES
      if DOWNLINK_SHORT_ROOTS < shortErasures.length then (false, [], 0)
      else
        let shortRes := decS longRes.2
          (shortErasures.map fun e => (e : Int) + (DOWNLINK_SHORT_PAD : Int))
        if 0 ≤ shortRes.1 ∧ shortRes.1 ≤ (DOWNLINK_SHORT_ROOTS : Int) ∧
            (shortRes.2.getD 0 0) >>> 3 = 0 then
          (true, shortRes.2.take DOWNLINK_SHORT_DATA_BYTES, shortRes.1.toNat)
        else (false, [], 0)

/-- Deinterleaved uplink block `b`: `blockdata[i] = raw[i * 6 + b]`
(src/fec.cc lines 113-116). -/
def uplinkBlockData (raw : List Nat) (block : Nat) : List Nat :=
  (List.range UPLINK_BLOCK_BYTES).map fun i =>
    raw.getD (i * UPLINK_BLOCKS_PER_FRAME + block) 0

/-- Erasures belonging to uplink block `b` (src/fec.cc lines 119-127),
before re-biasing. -/
def uplinkBlockErasures (erasures : List Nat) (block : Nat) : List Nat :=
  erasures.filter fun idx => idx % UPLINK_BLOCKS_PER_FRAME = block

/-- The `decode_rs_char` call for one uplink block (src/fec.cc line 135):
the deinterleaved block data together with this block's re-biased
erasures (`index / 6 + pad`, lines 122-124). -/
def uplinkBlockDecode (decU : RSDecoder) (raw erasures : List Nat)
    (block : Nat) : Int × List Nat :=
  decU (uplinkBlockData raw block)
    ((uplinkBlockErasures erasures block).map fun idx =>
      (idx / UPLINK_BLOCKS_PER_FRAME : Int) + (UPLINK_BLOCK_PAD : Int))

/-- The body of the per-block loop of `FEC::CorrectUplink`
(src/fec.cc lines 112-145), written as a recursion over the remaining
block indices.  Any block failure abandons the whole frame. -/
def uplinkLoop (decU : RSDecoder) (raw erasures : List Nat)
    (corrected : List Nat) (totalErrors : Nat) :
    List Nat → Bool × List Nat × Nat
  | [] => (true, corrected, totalErrors)
  | block :: restBlocks =>
    if UPLINK_BLOCK_ROOTS < (uplinkBlockErasures erasures block).length then (false, [], 0)
    else
      let res := uplinkBlockDecode decU raw erasures block
      if 0 ≤ res.1 ∧ res.1 ≤ (UPLINK_BLOCK_ROOTS : Int) then
        uplinkLoop decU raw erasures (corrected ++ res.2.take UPLINK_BLOCK_DATA_BYTES)
          (totalErrors + res.1.toNat) restBlocks
      else (false, [], 0)

/-- Source `FEC::CorrectUplink` (src/fec.cc lines 95-148). -/
def correctUplink (decU : RSDecoder) (raw erasures : List Nat) :
    Bool × List Nat × Nat :=
  if raw.length ≠ UPLINK_BYTES then (false, [], 0)
  else uplinkLoop decU raw erasures [] 0 [0, 1, 2, 3, 4, 5]

/-! ### CS16H atan2 table dispatch, from src/convert.cc -/

/-- Source `lookup_atan_.size()` (src/convert.h line 112): the table has 65536
entries, so valid indices are 0 .. 65535. -/
abbrev LOOKUP_ATAN_SIZE : Nat := 65536

/-- u16 wraparound. -/
def u16 (n : Nat) : Nat := n % 65536

/-- Source `CS16HConverter::TableAtan` (src/convert.cc lines 190-196),
parameterized by the table contents.  Note the saturation guard is
`r > size`, not `r >= size`. -/
def tableAtan (table : Nat → Nat) (r : Nat) : Nat :=
  if LOOKUP_ATAN_SIZE < r then 16384 else table r

/-- The table index `TableAtan` reads, or `none` when it saturates
without touching the table. -/
def tableAtanAccess (r : Nat) : Option Nat :=
  if LOOKUP_ATAN_SIZE < r then none else some r

/-- Source `CS16HConverter::TableAtan2` (src/convert.cc lines 198-232),
parameterized by the table contents.  C++ 32-bit division truncates toward
zero (`Int.tdiv`); the `(std::uint32_t)` casts are applied to values that
are non-negative in their branch, so they are `Int.toNat`. -/
def tableAtan2 (table : Nat → Nat) (y x : Int) : Nat :=
  if x = 0 then (if 0 ≤ y then 16384 else 49152)
  else
    let r : Int := (256 * y).tdiv x
    if x < 0 then
      if y < 0 then u16 (32768 + tableAtan table r.toNat)
      else u16 (32768 + 65536 - u16 (tableAtan table (-r).toNat))
    else
      if y < 0 then u16 (65536 - u16 (tableAtan table (-r).toNat))
      else tableAtan table r.toNat

/-- The table index read by `TableAtan2 y x`, or `none` when no table
access happens (x = 0 or saturation). -/
def tableAtan2AccessIndex (y x : Int) : Option Nat :=
  if x = 0 then none
  else
    let r : Int := (256 * y).tdiv x
    if x < 0 then
      if y < 0 then tableAtanAccess r.toNat
      else tableAtanAccess (-r).toNat
    else
      if y < 0 then tableAtanAccess (-r).toNat
      else tableAtanAccess r.toNat

/-! ### Demodulator, from src/demodulator.cc -/

/-- Return value of `Demodulate` (src/demodulator.h lines 23-28); the
iterators `begin`/`end` are indices into the phase buffer. -/
structure DemodMessage where
  payload : List Nat
  correctedErrors : Nat
  msgBegin : Nat
  msgEnd : Nat

/-- One byte of `DemodBits` (src/demodulator.cc lines 209-247): eight
adjacent-sample phase differences sliced against the two thresholds;
the `j`-th pair contributes mask `0x80 >> j`, and any pair that falls
between the slices marks the byte as an erasure. -/
def demodByte (φ : List Nat) (pos : Nat) (zeroSlice oneSlice : Int) : Nat × Bool :=
  (List.range 8).foldl
    (fun acc j =>
      let d := phaseDifference (φ.getD (pos + 2 * j) 0) (φ.getD (pos + 2 * j + 1) 0)
      if oneSlice < d then (acc.1 ||| (128 >>> j), acc.2)
      else if zeroSlice < d then (acc.1, true)
      else acc)
    (0, false)

/-- Source `DemodBits` (src/demodulator.cc lines 202-251): demodulate `bytes`
bytes starting at sample index `pos`, returning the bytes and the
ascending list of erased byte indices. -/
def demodBits (φ : List Nat) (pos : Nat) (bytes : Nat) (zeroSlice oneSlice : Int) :
    List Nat × List Nat :=
  ((List.range bytes).map fun i => (demodByte φ (pos + 16 * i) zeroSlice oneSlice).1,
   (List.range bytes).filter fun i => (demodByte φ (pos + 16 * i) zeroSlice oneSlice).2)

/-- Source `TwoMegDemodulator::DemodOneDownlink` (src/demodulator.cc lines
369-395), default (non-AUTO_CENTER) build: slice thresholds are both 0. -/
def demodOneDownlink (decL decS : RSDecoder) (φ : List Nat) (start : Nat) :
    Option DemodMessage :=
  let res := demodBits φ (start + SYNC_BITS * 2) DOWNLINK_LONG_BYTES 0 0
  let cor := correctDownlink decL decS res.1 res.2
  if cor.1 then
    some ⟨cor.2.1, cor.2.2, start,
      start + (SYNC_BITS +
        (if cor.2.1.length = DOWNLINK_LONG_DATA_BYTES then DOWNLINK_LONG_BITS
         else DOWNLINK_SHORT_BITS)) * 2⟩
  else none

/-- Source `TwoMegDemodulator::DemodOneUplink` (src/demodulator.cc lines
397-423), default build. -/
def demodOneUplink (decU : RSDecoder) (φ : List Nat) (start : Nat) :
    Option DemodMessage :=
  let res := demodBits φ (start + SYNC_BITS * 2) UPLINK_BYTES 0 0
  let cor := correctUplink decU res.1 res.2
  if cor.1 then
    some ⟨cor.2.1, cor.2.2, start, start + (SYNC_BITS + UPLINK_BITS) * 2⟩
  else none

/-- Source `message ? message->corrected_errors : 9999` (src/demodulator.cc
lines 360-361). -/
def errorsOrBig : Option DemodMessage → Nat
  | some m => m.correctedErrors
  | none => 9999

/-- Source `TwoMegDemodulator::DemodBest` (src/demodulator.cc lines 353-367):
demodulate at the nominal index and at index + 1 and keep the attempt
with fewer corrected errors (missing attempts count as 9999 errors). -/
def demodBest (decL decS decU : RSDecoder) (φ : List Nat) (start : Nat)
    (downlink : Bool) : Option DemodMessage :=
  let m0 := if downlink then demodOneDownlink decL decS φ start
            else demodOneUplink decU φ start
  let m1 := if downlink then demodOneDownlink decL decS φ (start + 1)
            else demodOneUplink decU φ (start + 1)
  if m0.isNone && m1.isNone then none
  else if errorsOrBig m0 ≤ errorsOrBig m1 then m0 else m1

/-- The sync-search loop of `TwoMegDemodulator::Demodulate`
(src/demodulator.cc lines 287-348).  `probe` steps by 2; on a successful
demodulation it jumps to the end of the frame (the source sets
`probe = message->end - 2` and the for-loop increment adds 2 back) and the
sync-bit counter resets.  The candidate start `probe - SYNC_BITS*2 + 2` is
written `probe + 2 - SYNC_BITS*2`; the two agree whenever a match is
possible (`syncBits + 1 ≥ SYNC_BITS` forces `probe ≥ 70`).  The loop is
driven by structural fuel; every iteration advances `probe` by at least 2,
so `φ.length + 1` units never run out before `probe` reaches `limit`. -/
def demodLoop (decL decS decU : RSDecoder) (φ : List Nat) (limit : Nat) :
    Nat → Nat → Nat → Nat → Nat → List DemodMessage → List DemodMessage
  | 0, _, _, _, _, acc => acc
  | fuel + 1, probe, sync0, sync1, syncBits, acc =>
    if limit ≤ probe then acc
    else
      let d0 := phaseDifference (φ.getD probe 0) (φ.getD (probe + 1) 0)
      let d1 := phaseDifference (φ.getD (probe + 1) 0) (φ.getD (probe + 2) 0)
      let s0 := ((sync0 <<< 1) ||| (if 0 < d0 then 1 else 0)) &&& (2 ^ SYNC_BITS - 1)
      let s1 := ((sync1 <<< 1) ||| (if 0 < d1 then 1 else 0)) &&& (2 ^ SYNC_BITS - 1)
      if syncBits + 1 < SYNC_BITS then
        demodLoop decL decS decU φ limit fuel (probe + 2) s0 s1 (syncBits + 1) acc
      else
        match (if syncWordMatch s0 DOWNLINK_SYNC_WORD then
            demodBest decL decS decU φ (probe + 2 - SYNC_BITS * 2) true else none) with
        | some m => demodLoop decL decS decU φ limit fuel m.msgEnd s0 s1 0 (acc ++ [m])
        | none =>
          match (if syncWordMatch s1 DOWNLINK_SYNC_WORD then
              demodBest decL decS decU φ (probe + 3 - SYNC_BITS * 2) true else none) with
          | some m => demodLoop decL decS decU φ limit fuel m.msgEnd s0 s1 0 (acc ++ [m])
          | none =>
            match (if syncWordMatch s0 UPLINK_SYNC_WORD then
                demodBest decL decS decU φ (probe + 2 - SYNC_BITS * 2) false else none) with
            | some m => demodLoop decL decS decU φ limit fuel m.msgEnd s0 s1 0 (acc ++ [m])
            | none =>
              match (if syncWordMatch s1 UPLINK_SYNC_WORD then
                  demodBest decL decS decU φ (probe + 3 - SYNC_BITS * 2) false else none) with
              | some m => demodLoop decL decS decU φ limit fuel m.msgEnd s0 s1 0 (acc ++ [m])
              | none => demodLoop decL decS decU φ limit fuel (probe + 2) s0 s1 (syncBits + 1) acc

/-- Source `TwoMegDemodulator::Demodulate` (src/demodulator.cc lines 259-351). -/
def demodulate (decL decS decU : RSDecoder) (φ : List Nat) : List DemodMessage :=
  if φ.length < (SYNC_BITS + UPLINK_BITS) * 2 then []
  else demodLoop decL decS decU φ (φ.length - (SYNC_BITS + UPLINK_BITS) * 2)
    (φ.length + 1) 0 0 0 0 []

/-! ### Receiver bookkeeping, from src/demodulator.cc (SingleThreadReceiver) -/

/-- Source `TwoMegDemodulator::NumTrailingSamples` (src/demodulator.cc line 253). -/
def numTrailingSamples : Nat := (SYNC_BITS + UPLINK_BITS) * 2

/-- The `saved_samples_` state after `SingleThreadReceiver::HandleSamples`
(src/demodulator.cc lines 27-30 and 73-80): keep the whole total when it
fits in the trailing reserve, else exactly the reserve. -/
def savedSamplesAfter (previousSamples bufferSamples : Nat) : Nat :=
  if numTrailingSamples < bufferSamples + previousSamples then numTrailingSamples
  else bufferSamples + previousSamples

/-- The per-frame timestamp of `SingleThreadReceiver::HandleSamples`
(src/demodulator.cc line 65), in wrapping 64-bit unsigned arithmetic:
`timestamp - (1000 * previous_samples / 2083333)
          + (1000 * frame_sample_start / 2083333)`.
The signed 64-bit product for the frame start is assumed not to overflow
(the theorem hypotheses bound it). -/
def messageTimestamp (timestamp previousSamples frameSampleStart : Nat) : Nat :=
  ((timestamp + (2 ^ 64 - 1000 * previousSamples % 2 ^ 64 / 2083333)) % 2 ^ 64 +
    1000 * frameSampleStart / 2083333) % 2 ^ 64

/-! ### Raw line parser, from src/socket_input.cc and src/uat_message.h

Lines are lists of characters.  `std::string::find(c, i)` is modelled on
the suffix starting at `i` (`findChar` returns a suffix-relative offset).
The C++ numeric conversions (`std::stoi`, `std::stod`, the try/catch
defaulting to 0) are standard-library calls outside these sources, so they
are abstract parameters; the claims under test never depend on the parsed
numeric values. -/

/-- Source `hexvalue` (src/socket_input.cc lines 141-184). -/
def hexvalue (c : Char) : Int :=
  match c with
  | '0' => 0
  | '1' => 1
  | '2' => 2
  | '3' => 3
  | '4' => 4
  | '5' => 5
  | '6' => 6
  | '7' => 7
  | '8' => 8
  | '9' => 9
  | 'a' => 10
  | 'A' => 10
  | 'b' => 11
  | 'B' => 11
  | 'c' => 12
  | 'C' => 12
  | 'd' => 13
  | 'D' => 13
  | 'e' => 14
  | 'E' => 14
  | 'f' => 15
  | 'F' => 15
  | _ => -1

/-- First offset of `c` in the list, as `std::string::find` restricted to
a suffix. -/
def findChar (c : Char) : List Char → Option Nat
  | [] => none
  | d :: rest => if d = c then some 0 else (findChar c rest).map (· + 1)

/-- The hex-payload loop of `RawInput::ParseLine` (src/socket_input.cc
lines 241-249): consume the digits two at a time, failing on any non-hex
character. -/
def parseHexPairs : List Char → Option (List Nat)
  | [] => some []
  | [_] => none
  | c1 :: c2 :: rest =>
    if hexvalue c1 < 0 ∨ hexvalue c2 < 0 then none
    else
      match parseHexPairs rest with
      | none => none
      | some tail => some (((hexvalue c1).toNat <<< 4 ||| (hexvalue c2).toNat) :: tail)

/-- Source `MessageType` (src/uat_message.h / src/uat_protocol.h). -/
inductive MessageType
  | DOWNLINK_SHORT
  | DOWNLINK_LONG
  | UPLINK
  | INVALID
  | METADATA
deriving DecidableEq

/-- Source `RawMessage` (src/uat_message.h); the metadata map is modelled as the
list of insertions. -/
structure RawMessage where
  type : MessageType
  payload : List Nat
  receivedAt : Nat
  errors : Nat
  rssi : Float
  rawTimestamp : Nat
  metadata : List (List Char × List Char)

/-- The `switch (payload_.size())` of the `RawMessage` payload
constructors (src/uat_message.h lines 44-59). -/
def typeOfPayload (payload : List Nat) : MessageType :=
  if payload.length = DOWNLINK_SHORT_DATA_BYTES then MessageType.DOWNLINK_SHORT
  else if payload.length = DOWNLINK_LONG_DATA_BYTES then MessageType.DOWNLINK_LONG
  else if payload.length = UPLINK_DATA_BYTES then MessageType.UPLINK
  else MessageType.INVALID

/-- The `RawMessage` payload constructor (src/uat_message.h lines 44-59):
argument order is payload, received_at, errors, rssi, raw_timestamp. -/
def mkRawMessage (payload : List Nat) (receivedAt : Nat) (errors : Nat)
    (rssi : Float) (rawTimestamp : Nat) : RawMessage :=
  ⟨typeOfPayload payload, payload, receivedAt, errors, rssi, rawTimestamp, []⟩

/-- The key dispatch of the key-value loop (src/socket_input.cc lines
269-293): recognized keys update one field, every other key is ignored.
State tuple order: (rs, rssi, t, rt). -/
def applyKV (rsF : List Char → Nat) (rssiF : List Char → Float)
    (tF rtF : List Char → Nat) (key value : List Char)
    (st : Nat × Float × Nat × Nat) : Nat × Float × Nat × Nat :=
  if key = ['r', 's'] then (rsF value, st.2.1, st.2.2.1, st.2.2.2)
  else if key = ['r', 's', 's', 'i'] then (st.1, rssiF value, st.2.2.1, st.2.2.2)
  else if key = ['t'] then (st.1, st.2.1, tF value, st.2.2.2)
  else if key = ['r', 't'] then (st.1, st.2.1, st.2.2.1, rtF value)
  else st

/-- The key-value loop of `RawInput::ParseLine` (src/socket_input.cc lines
258-296), acting on the suffix of the line after the payload's
semicolon. -/
def kvLoop (rsF : List Char → Nat) (rssiF : List Char → Float)
    (tF rtF : List Char → Nat) :
    List Char → Nat × Float × Nat × Nat → Nat × Float × Nat × Nat
  | [], st => st
  | c :: rest, st =>
    match findChar '=' (c :: rest), findChar ';' (c :: rest) with
    | some eq, some sem =>
      if sem < eq then st
      else
        kvLoop rsF rssiF tF rtF ((c :: rest).drop (sem + 1))
          (applyKV rsF rssiF tF rtF ((c :: rest).take eq)
            (((c :: rest).drop (eq + 1)).take (sem - eq - 1)) st)
    | _, _ => st
termination_by suffix _ => suffix.length
decreasing_by simp only [List.length_drop, List.length_cons]; omega

/-- The metadata loop of `RawInput::ParseMetadataLine`
(src/socket_input.cc lines 186-206), collecting insertions in order. -/
def metaLoop : List Char → List (List Char × List Char) →
    List (List Char × List Char)
  | [], acc => acc
  | c :: rest, acc =>
    match findChar '=' (c :: rest), findChar ';' (c :: rest) with
    | some eq, some sem =>
      if sem < eq then acc
      else
        metaLoop ((c :: rest).drop (sem + 1))
          (acc ++ [((c :: rest).take eq,
            ((c :: rest).drop (eq + 1)).take (sem - eq - 1))])
    | _, _ => acc
termination_by suffix _ => suffix.length
decreasing_by simp only [List.length_drop, List.length_cons]; omega

/-- Source `RawInput::ParseMetadataLine` (src/socket_input.cc lines 186-206),
given the line after its leading `!`; builds a metadata-only message via
`RawMessage(MetadataMap&&)` (src/uat_message.h line 61). -/
def parseMetadataLine (rest : List Char) : RawMessage :=
  ⟨MessageType.METADATA, [], 0, 0, 0.0, 0, metaLoop rest []⟩

/-- Source `RawInput::ParseLine` (src/socket_input.cc lines 208-299).  `rest` is
the line after its first character, so the semicolon offset `e` equals the
source's `hexlength = eod - 1`. -/
def parseLine (rsF : List Char → Nat) (rssiF : List Char → Float)
    (tF rtF : List Char → Nat) (line : List Char) : Option RawMessage :=
  if line.length < 2 then none
  else
    match line with
    | [] => none
    | c0 :: rest =>
      if c0 = '!' then some (parseMetadataLine rest)
      else if c0 ≠ '-' ∧ c0 ≠ '+' then none
      else
        match findChar ';' rest with
        | none => none
        | some e =>
          if e % 2 ≠ 0 then none
          else
            match parseHexPairs (rest.take e) with
            | none => none
            | some payload =>
              some (mkRawMessage payload
                (kvLoop rsF rssiF tF rtF (rest.drop (e + 1)) (0, 0.0, 0, 0)).2.2.1
                (kvLoop rsF rssiF tF rtF (rest.drop (e + 1)) (0, 0.0, 0, 0)).1
                (kvLoop rsF rssiF tF rtF (rest.drop (e + 1)) (0, 0.0, 0, 0)).2.1
                (kvLoop rsF rssiF tF rtF (rest.drop (e + 1)) (0, 0.0, 0, 0)).2.2.2)

/-! ### Concrete instances and statement helpers -/

/-- A decoder that reports success with zero corrections and leaves the
data untouched (a legal behavior of `decode_rs_char` on a clean block);
used to instantiate the abstract decoder in witnesses. -/
def idDecoder : RSDecoder := fun d _ => (0, d)

/-- A decoder that always fails (returns a negative corrected count and
leaves the data untouched, as `decode_rs_char` does on an uncorrectable
block); used to instantiate the abstract decoder in witnesses. -/
def failDecoder : RSDecoder := fun d _ => (-1, d)

/-- Constant numeric-conversion stand-ins for the parser witnesses. -/
def zeroNatF : List Char → Nat := fun _ => 0

/-- Constant float-conversion stand-in for the parser witnesses. -/
def zeroFloatF : List Char → Float := fun _ => 0

/-- Propositional form of the size/bit-length correspondence of C10: the
corrected payload's size (18, 34 or 432 bytes) fixes the bit length that
determines the sample range. -/
def sizeBitsOK (m : DemodMessage) : Prop :=
  (m.payload.length = DOWNLINK_SHORT_DATA_BYTES ∧
    m.msgEnd = m.msgBegin + (SYNC_BITS + DOWNLINK_SHORT_BITS) * 2) ∨
  (m.payload.length = DOWNLINK_LONG_DATA_BYTES ∧
    m.msgEnd = m.msgBegin + (SYNC_BITS + DOWNLINK_LONG_BITS) * 2) ∨
  (m.payload.length = UPLINK_DATA_BYTES ∧
    m.msgEnd = m.msgBegin + (SYNC_BITS + UPLINK_BITS) * 2)

/-- The property C10 asserts of one demodulated message within a phase
buffer of length `phiLen`: its sample range lies inside the buffer and its
length is `(SYNC_BITS + bits) * 2` where `bits` corresponds to the
corrected payload's size. -/
def spanOK (phiLen : Nat) (m : DemodMessage) : Bool :=
  decide (m.msgEnd ≤ phiLen) && decide (m.msgBegin ≤ m.msgEnd) &&
    (decide (m.payload.length = DOWNLINK_SHORT_DATA_BYTES ∧
        m.msgEnd = m.msgBegin + (SYNC_BITS + DOWNLINK_SHORT_BITS) * 2) ||
     decide (m.payload.length = DOWNLINK_LONG_DATA_BYTES ∧
        m.msgEnd = m.msgBegin + (SYNC_BITS + DOWNLINK_LONG_BITS) * 2) ||
     decide (m.payload.length = UPLINK_DATA_BYTES ∧
        m.msgEnd = m.msgBegin + (SYNC_BITS + UPLINK_BITS) * 2))

/-! ### Theorems -/

theorem popCount_two_mul (m : Nat) : popCount (2 * m) = popCount m := by
  rcases Nat.eq_zero_or_pos m with h | h
  · subst h; rfl
  · rw [popCount]
    have h2 : ¬(2 * m = 0) := by omega
    rw [if_neg h2, Nat.mul_mod_right, Nat.mul_div_cancel_left _ (by omega : 0 < 2)]
    omega

theorem popCount_two_mul_add_one (m : Nat) : popCount (2 * m + 1) = popCount m + 1 := by
  rw [popCount]
  have h2 : ¬(2 * m + 1 = 0) := by omega
  rw [if_neg h2]
  have hmod : (2 * m + 1) % 2 = 1 := by omega
  have hdiv : (2 * m + 1) / 2 = m := by omega
  rw [hmod, hdiv]
  omega

theorem land_two_mul_two_mul (a b : Nat) : 2 * a &&& 2 * b = 2 * (a &&& b) := by
  simpa [Nat.bit_val] using Nat.land_bit false a false b

theorem land_two_mul_add_one_two_mul (a b : Nat) :
    (2 * a + 1) &&& 2 * b = 2 * (a &&& b) := by
  simpa [Nat.bit_val] using Nat.land_bit true a false b

theorem land_two_mul_two_mul_add_one (a b : Nat) :
    2 * a &&& (2 * b + 1) = 2 * (a &&& b) := by
  simpa [Nat.bit_val] using Nat.land_bit false a true b

theorem land_two_mul_add_one_self (a b : Nat) :
    (2 * a + 1) &&& (2 * b + 1) = 2 * (a &&& b) + 1 := by
  simpa [Nat.bit_val] using Nat.land_bit true a true b

theorem land_self (n : Nat) : n &&& n = n := by
  induction n using Nat.strong_induction_on with
  | _ n ih =>
    rcases Nat.eq_zero_or_pos n with h | h
    · subst h; rfl
    · rcases Nat.even_or_odd n with ⟨m, hm⟩ | ⟨m, hm⟩
      · have hmn : m < n := by omega
        have : n = 2 * m := by omega
        rw [this, land_two_mul_two_mul, ih m hmn]
      · have hmn : m < n := by omega
        rw [hm, land_two_mul_add_one_self, ih m hmn]

theorem popCount_eq_zero (n : Nat) : popCount n = 0 ↔ n = 0 := by
  induction n using Nat.strong_induction_on with
  | _ n ih =>
    rcases Nat.eq_zero_or_pos n with h | h
    · subst h; simp [popCount]
    · rw [popCount, if_neg (by omega : ¬(n = 0))]
      rcases Nat.even_or_odd n with ⟨m, hm⟩ | ⟨m, hm⟩
      · have hn : n = 2 * m := by omega
        have hm0 : 0 < m := by omega
        have := ih m (by omega)
        have hmod : n % 2 = 0 := by omega
        have hdiv : n / 2 = m := by omega
        rw [hmod, hdiv]
        omega
      · have hmod : n % 2 = 1 := by omega
        omega

theorem popCount_clearLowest (n : Nat) (h : n ≠ 0) :
    popCount (clearLowest n) + 1 = popCount n := by
  induction n using Nat.strong_induction_on with
  | _ n ih =>
    unfold clearLowest
    rcases Nat.even_or_odd n with ⟨m, hm⟩ | ⟨m, hm⟩
    · -- n even and nonzero: n = 2m with m > 0
      have hn : n = 2 * m := by omega
      have hm0 : m ≠ 0 := by omega
      have hpred : n - 1 = 2 * (m - 1) + 1 := by omega
      rw [hpred, hn, land_two_mul_two_mul_add_one, popCount_two_mul, popCount_two_mul]
      have := ih m (by omega) hm0
      unfold clearLowest at this
      exact this
    · -- n odd: n = 2m + 1, n - 1 = 2m
      have hn : n = 2 * m + 1 := by omega
      have hpred : n - 1 = 2 * m := by omega
      rw [hpred, hn, land_two_mul_add_one_two_mul, land_self, popCount_two_mul,
        popCount_two_mul_add_one]

theorem popCount_pos (n : Nat) (h : n ≠ 0) : 1 ≤ popCount n := by
  rcases Nat.eq_zero_or_pos (popCount n) with hz | hp
  · exact absurd ((popCount_eq_zero n).mp hz) h
  · exact hp

/-- C6: for every pair of 36-bit values, `SyncWordMatch word expected`
returns true if and only if the population count of `word XOR expected`
is at most 4. -/
theorem c6_sync_word_match (word expected : Nat)
    (hw : word < 2 ^ 36) (he : expected < 2 ^ 36) :
    syncWordMatch word expected = true ↔ popCount (word ^^^ expected) ≤ 4 := by
  by_cases hwe : word = expected
  · subst hwe
    simp [syncWordMatch, Nat.xor_self, popCount]
  · have hd : word ^^^ expected ≠ 0 := by
      intro hz
      exact hwe (Nat.xor_eq_zero.mp hz)
    unfold syncWordMatch
    rw [if_neg hwe]
    generalize hgen : word ^^^ expected = d at hd ⊢
    have s1 : popCount (clearLowest d) + 1 = popCount d := popCount_clearLowest d hd
    by_cases h1 : clearLowest d = 0
    · have hp : popCount d = 1 := by
        rw [← s1, h1, (popCount_eq_zero 0).mpr rfl]
      rw [if_pos h1]
      simp [hp]
    · have s2 : popCount (clearLowest (clearLowest d)) + 1 = popCount (clearLowest d) :=
        popCount_clearLowest _ h1
      rw [if_neg h1]
      by_cases h2 : clearLowest (clearLowest d) = 0
      · have hp : popCount d = 2 := by
          have : popCount (clearLowest (clearLowest d)) = 0 :=
            (popCount_eq_zero _).mpr h2
          omega
        rw [if_pos h2]
        simp [hp]
      · have s3 : popCount (clearLowest (clearLowest (clearLowest d))) + 1 =
            popCount (clearLowest (clearLowest d)) := popCount_clearLowest _ h2
        rw [if_neg h2]
        by_cases h3 : clearLowest (clearLowest (clearLowest d)) = 0
        · have hp : popCount d = 3 := by
            have : popCount (clearLowest (clearLowest (clearLowest d))) = 0 :=
              (popCount_eq_zero _).mpr h3
            omega
          rw [if_pos h3]
          simp [hp]
        · have s4 :
              popCount (clearLowest (clearLowest (clearLowest (clearLowest d)))) + 1 =
                popCount (clearLowest (clearLowest (clearLowest d))) :=
            popCount_clearLowest _ h3
          rw [if_neg h3]
          by_cases h4 : clearLowest (clearLowest (clearLowest (clearLowest d))) = 0
          · have hp : popCount d = 4 := by
              have :
                  popCount (clearLowest (clearLowest (clearLowest (clearLowest d)))) = 0 :=
                (popCount_eq_zero _).mpr h4
              omega
            rw [if_pos h4]
            simp [hp]
          · have h5 := popCount_pos _ h4
            have hp : 5 ≤ popCount d := by omega
            rw [if_neg h4]
            simp
            omega

/-- Witness for C6: a candidate with exactly 4 flipped bits is accepted,
one with 5 flipped bits is rejected. -/
theorem c6_sync_word_match_witness :
    syncWordMatch (DOWNLINK_SYNC_WORD ^^^ 15) DOWNLINK_SYNC_WORD = true ∧
      syncWordMatch (DOWNLINK_SYNC_WORD ^^^ 31) DOWNLINK_SYNC_WORD = false := by
  constructor
  · have h15 : (DOWNLINK_SYNC_WORD ^^^ 15) ^^^ DOWNLINK_SYNC_WORD = 15 := by
      rw [Nat.xor_comm DOWNLINK_SYNC_WORD 15, Nat.xor_cancel_right]
    exact (c6_sync_word_match (DOWNLINK_SYNC_WORD ^^^ 15) DOWNLINK_SYNC_WORD
      (by decide) (by decide)).mpr (by rw [h15]; simp [popCount])
  · decide

/-- C7: for every pair of u16 phase samples, `PhaseDifference a b` lies in
[-32768, 32767] and equals ((b - a + 32768) mod 65536) - 32768. -/
theorem c7_phase_difference (a b : Nat) (ha : a < 65536) (hb : b < 65536) :
    -32768 ≤ phaseDifference a b ∧ phaseDifference a b ≤ 32767 ∧
      phaseDifference a b = ((b : Int) - (a : Int) + 32768) % 65536 - 32768 := by
  unfold phaseDifference
  have ha' : (a : Int) < 65536 := by exact_mod_cast ha
  have hb' : (b : Int) < 65536 := by exact_mod_cast hb
  have ha0 : (0 : Int) ≤ (a : Int) := Int.natCast_nonneg a
  have hb0 : (0 : Int) ≤ (b : Int) := Int.natCast_nonneg b
  split_ifs <;> omega

/-- Witness for C7 at a concrete pair of samples. -/
theorem c7_phase_difference_witness :
    -32768 ≤ phaseDifference 100 40000 ∧ phaseDifference 100 40000 ≤ 32767 ∧
      phaseDifference 100 40000 =
        ((40000 : Int) - (100 : Int) + 32768) % 65536 - 32768 :=
  c7_phase_difference 100 40000 (by decide) (by decide)

/-- C1 as stated is false on the code: `NumTrailingSamples` returns
`(SYNC_BITS + UPLINK_BITS) * 2 = (36 + 4416) * 2 = 8904`, not 936. -/
theorem c1_trailing_reserve_cex : ¬ (numTrailingSamples = 936) := by decide

/-- C1 (amended): the demodulator's trailing reserve equals
`(SYNC_BITS + UPLINK_BITS) * 2 = 8904` samples, and after every
`HandleSamples` call the receiver retains at most 8904 unprocessed samples
as the tail for the next call (all samples if there are fewer). -/
theorem c1_trailing_reserve (previousSamples bufferSamples : Nat) :
    numTrailingSamples = (SYNC_BITS + UPLINK_BITS) * 2 ∧
      numTrailingSamples = 8904 ∧
      savedSamplesAfter previousSamples bufferSamples ≤ 8904 ∧
      (bufferSamples + previousSamples ≤ 8904 →
        savedSamplesAfter previousSamples bufferSamples =
          bufferSamples + previousSamples) := by
  have h8904 : numTrailingSamples = 8904 := rfl
  refine ⟨rfl, rfl, ?_, ?_⟩ <;>
    · unfold savedSamplesAfter
      rw [h8904]
      split_ifs <;> omega

/-- Witness for C1 (amended): a 900-sample total is retained whole, a
100000-sample total is clipped to 8904. -/
theorem c1_trailing_reserve_witness :
    savedSamplesAfter 500 400 = 900 ∧ savedSamplesAfter 8904 91096 ≤ 8904 := by
  constructor
  · have h := (c1_trailing_reserve 500 400).2.2.2 (by omega)
    omega
  · exact (c1_trailing_reserve 8904 91096).2.2.1

/-- C4 (code bug): at (y, x) = (256, 1) the ratio is `256 * 256 / 1 =
65536` and the saturation guard `r > lookup_atan_.size()` does not fire,
so `TableAtan` reads `lookup_atan_[65536]` — one entry past the end of the
65536-entry table, contradicting the claim that every table access has
index < 65536. -/
theorem c4_atan_table_overrun :
    tableAtan2AccessIndex 256 1 = some LOOKUP_ATAN_SIZE ∧
      ¬ (LOOKUP_ATAN_SIZE < LOOKUP_ATAN_SIZE) ∧
      tableAtan2AccessIndex 255 1 = some 65280 := by
  refine ⟨by decide, by decide, by decide⟩

/-- C9: the per-frame timestamp equals
`chunk_timestamp - 1000 * saved_samples / 2083333
                 + 1000 * frame_sample_start / 2083333`
with truncating division, whenever the 64-bit arithmetic does not wrap. -/
theorem c9_message_timestamp (ts prev start : Nat)
    (hts : ts < 2 ^ 64)
    (hprev : 1000 * prev < 2 ^ 64)
    (hsub : 1000 * prev / 2083333 ≤ ts)
    (hsum : ts - 1000 * prev / 2083333 + 1000 * start / 2083333 < 2 ^ 64) :
    messageTimestamp ts prev start =
      ts - 1000 * prev / 2083333 + 1000 * start / 2083333 := by
  unfold messageTimestamp
  rw [Nat.mod_eq_of_lt hprev]
  generalize hA : 1000 * prev / 2083333 = A at hsub hsum ⊢
  generalize hB : 1000 * start / 2083333 = B at hsum ⊢
  omega

/-- Witness for C9 at a concrete chunk. -/
theorem c9_message_timestamp_witness :
    messageTimestamp 1000000 8904 9000 =
      1000000 - 1000 * 8904 / 2083333 + 1000 * 9000 / 2083333 :=
  c9_message_timestamp 1000000 8904 9000 (by decide) (by decide) (by decide)
    (by decide)

theorem uplinkLoop_fail (decU : RSDecoder) (raw erasures corrected : List Nat)
    (totalErrors : Nat) (blocks : List Nat) (b : Nat) (hb : b ∈ blocks)
    (hover : UPLINK_BLOCK_ROOTS < (uplinkBlockErasures erasures b).length) :
    uplinkLoop decU raw erasures corrected totalErrors blocks = (false, [], 0) := by
  induction blocks generalizing corrected totalErrors with
  | nil => cases hb
  | cons block rest ih =>
    unfold uplinkLoop
    rcases List.mem_cons.mp hb with hbe | hbr
    · subst hbe
      rw [if_pos hover]
    · by_cases hov : UPLINK_BLOCK_ROOTS < (uplinkBlockErasures erasures block).length
      · rw [if_pos hov]
      · rw [if_neg hov]
        by_cases hok : 0 ≤ (uplinkBlockDecode decU raw erasures block).1 ∧
            (uplinkBlockDecode decU raw erasures block).1 ≤ (UPLINK_BLOCK_ROOTS : Int)
        · rw [if_pos hok]
          exact ih _ _ hbr
        · rw [if_neg hok]

theorem uplinkLoop_spec (decU : RSDecoder) (raw erasures : List Nat)
    (blocks : List Nat) (corrected : List Nat) (totalErrors : Nat)
    (hers : ∀ b ∈ blocks,
      (uplinkBlockErasures erasures b).length ≤ UPLINK_BLOCK_ROOTS) :
    uplinkLoop decU raw erasures corrected totalErrors blocks =
      if ∀ b ∈ blocks, 0 ≤ (uplinkBlockDecode decU raw erasures b).1 ∧
          (uplinkBlockDecode decU raw erasures b).1 ≤ (UPLINK_BLOCK_ROOTS : Int) then
        (true,
          corrected ++ (blocks.map fun b =>
            (uplinkBlockDecode decU raw erasures b).2.take UPLINK_BLOCK_DATA_BYTES).flatten,
          totalErrors + (blocks.map fun b =>
            (uplinkBlockDecode decU raw erasures b).1.toNat).sum)
      else (false, [], 0) := by
  induction blocks generalizing corrected totalErrors with
  | nil => simp [uplinkLoop]
  | cons block rest ih =>
    unfold uplinkLoop
    have hov : ¬ (UPLINK_BLOCK_ROOTS < (uplinkBlockErasures erasures block).length) := by
      have := hers block (List.mem_cons_self block rest)
      omega
    rw [if_neg hov]
    by_cases hok : 0 ≤ (uplinkBlockDecode decU raw erasures block).1 ∧
        (uplinkBlockDecode decU raw erasures block).1 ≤ (UPLINK_BLOCK_ROOTS : Int)
    · rw [if_pos hok]
      rw [ih _ _ (fun b hb => hers b (List.mem_cons_of_mem block hb))]
      by_cases hrest : ∀ b ∈ rest, 0 ≤ (uplinkBlockDecode decU raw erasures b).1 ∧
          (uplinkBlockDecode decU raw erasures b).1 ≤ (UPLINK_BLOCK_ROOTS : Int)
      · have hall : ∀ b ∈ block :: rest,
            0 ≤ (uplinkBlockDecode decU raw erasures b).1 ∧
              (uplinkBlockDecode decU raw erasures b).1 ≤ (UPLINK_BLOCK_ROOTS : Int) := by
          intro b hb
          rcases List.mem_cons.mp hb with h | h
          · subst h; exact hok
          · exact hrest b h
        rw [if_pos hrest, if_pos hall]
        simp [List.append_assoc, Nat.add_assoc]
      · have hnall : ¬ ∀ b ∈ block :: rest,
            0 ≤ (uplinkBlockDecode decU raw erasures b).1 ∧
              (uplinkBlockDecode decU raw erasures b).1 ≤ (UPLINK_BLOCK_ROOTS : Int) :=
          fun hall => hrest fun b hb => hall b (List.mem_cons_of_mem block hb)
        rw [if_neg hrest, if_neg hnall]
    · have hnall : ¬ ∀ b ∈ block :: rest,
          0 ≤ (uplinkBlockDecode decU raw erasures b).1 ∧
            (uplinkBlockDecode decU raw erasures b).1 ≤ (UPLINK_BLOCK_ROOTS : Int) :=
        fun hall => hok (hall block (List.mem_cons_self block rest))
      rw [if_neg hok, if_neg hnall]

/-- C8: an erasure list larger than the nroots of the code about to be
used makes the FEC entry points fail with (false, [], 0) without invoking
that code's decoder — the result is the same for every decoder, which is
exactly what "not invoked" means observably.  Part 1: more than 14
erasures fail the downlink call outright.  Part 2: if the long decode was
rejected and more than 12 erasures survive the `< DOWNLINK_SHORT_BYTES`
filter, the short decoder is never consulted.  Part 3: more than 20
erasures in any single uplink block fail the uplink call for every
decoder. -/
theorem c8_erasure_limits :
    (∀ decL decS : RSDecoder, ∀ raw erasures : List Nat,
        DOWNLINK_LONG_ROOTS < erasures.length →
        correctDownlink decL decS raw erasures = (false, [], 0)) ∧
    (∀ decL decS : RSDecoder, ∀ raw erasures : List Nat, ∀ nL : Int, ∀ cL : List Nat,
        decL (erasures.foldl (fun d e => d.set e 0) raw)
            (erasures.map fun e => (e : Int) + (DOWNLINK_LONG_PAD : Int)) = (nL, cL) →
        ¬ (0 ≤ nL ∧ nL ≤ (DOWNLINK_LONG_ROOTS : Int) ∧ (cL.getD 0 0) >>> 3 ≠ 0) →
        DOWNLINK_SHORT_ROOTS <
          (erasures.filter fun e => e < DOWNLINK_SHORT_BYTES).length →
        correctDownlink decL decS raw erasures = (false, [], 0)) ∧
    (∀ decU : RSDecoder, ∀ raw erasures : List Nat, ∀ block : Nat,
        block < UPLINK_BLOCKS_PER_FRAME →
        UPLINK_BLOCK_ROOTS < (uplinkBlockErasures erasures block).length →
        correctUplink decU raw erasures = (false, [], 0)) := by
  refine ⟨?_, ?_, ?_⟩
  · intro decL decS raw erasures hover
    unfold correctDownlink
    by_cases hraw : raw.length ≠ DOWNLINK_LONG_BYTES
    · rw [if_pos hraw]
    · rw [if_neg hraw, if_pos hover]
  · intro decL decS raw erasures nL cL hL hnotLong hshortOver
    unfold correctDownlink
    by_cases hraw : raw.length ≠ DOWNLINK_LONG_BYTES
    · rw [if_pos hraw]
    · rw [if_neg hraw]
      by_cases hover : DOWNLINK_LONG_ROOTS < erasures.length
      · rw [if_pos hover]
      · rw [if_neg hover]
        simp only [hL]
        rw [if_neg hnotLong, if_pos hshortOver]
  · intro decU raw erasures block hblock hover
    unfold correctUplink
    by_cases hraw : raw.length ≠ UPLINK_BYTES
    · rw [if_pos hraw]
    · rw [if_neg hraw]
      refine uplinkLoop_fail decU raw erasures [] 0 [0, 1, 2, 3, 4, 5] block ?_ hover
      interval_cases block <;> simp

/-- Witness for C8: 15 erasures fail a downlink call for a decoder that
would otherwise succeed; 13 sub-30 erasures fail the short retry after a
rejected long decode; 21 erasures hitting uplink block 0 fail the uplink
call. -/
theorem c8_erasure_limits_witness :
    correctDownlink idDecoder idDecoder
        (List.replicate 48 0) (List.replicate 15 0) = (false, [], 0) ∧
      correctDownlink failDecoder idDecoder
        (List.replicate 48 0) (List.replicate 13 0) = (false, [], 0) ∧
      correctUplink idDecoder
        (List.replicate 552 0) (List.replicate 21 0) = (false, [], 0) := by
  refine ⟨?_, ?_, ?_⟩
  · exact c8_erasure_limits.1 _ _ _ _ (by simp)
  · refine c8_erasure_limits.2.1 _ _ _ _ (-1)
      ((List.replicate 13 0).foldl (fun d e => d.set e 0) (List.replicate 48 0))
      rfl (by decide) (by decide)
  · exact c8_erasure_limits.2.2 _ _ _ 0 (by decide) (by decide)

/-- C3: for every 552-byte input whose per-block erasures fit the code,
`FEC::CorrectUplink` decodes the six byte-wise deinterleaved blocks
independently (block b's data is `raw[i * 6 + b]`, its erasures are the
raw indices with `index mod 6 = b` re-biased to `index / 6 + pad`); when
every block decodes it returns the 72-byte data halves concatenated in
block order — 432 bytes for a length-preserving decoder — with the summed
error count, and when any single block fails the whole call fails. -/
theorem c3_correct_uplink (decU : RSDecoder) (raw erasures : List Nat)
    (hraw : raw.length = UPLINK_BYTES)
    (hlen : ∀ d e, (decU d e).2.length = d.length)
    (hers : ∀ b, b < UPLINK_BLOCKS_PER_FRAME →
      (uplinkBlockErasures erasures b).length ≤ UPLINK_BLOCK_ROOTS) :
    ((∀ b, b < UPLINK_BLOCKS_PER_FRAME →
        0 ≤ (uplinkBlockDecode decU raw erasures b).1 ∧
          (uplinkBlockDecode decU raw erasures b).1 ≤ (UPLINK_BLOCK_ROOTS : Int)) →
      correctUplink decU raw erasures =
        (true,
          ((List.range UPLINK_BLOCKS_PER_FRAME).map fun b =>
            (uplinkBlockDecode decU raw erasures b).2.take UPLINK_BLOCK_DATA_BYTES).flatten,
          ((List.range UPLINK_BLOCKS_PER_FRAME).map fun b =>
            (uplinkBlockDecode decU raw erasures b).1.toNat).sum) ∧
        (correctUplink decU raw erasures).2.1.length = UPLINK_DATA_BYTES) ∧
    ((∃ b, b < UPLINK_BLOCKS_PER_FRAME ∧
        ¬ (0 ≤ (uplinkBlockDecode decU raw erasures b).1 ∧
          (uplinkBlockDecode decU raw erasures b).1 ≤ (UPLINK_BLOCK_ROOTS : Int))) →
      correctUplink decU raw erasures = (false, [], 0)) := by
  have hblocks : List.range UPLINK_BLOCKS_PER_FRAME = [0, 1, 2, 3, 4, 5] := rfl
  have hraw' : ¬ (raw.length ≠ UPLINK_BYTES) := by simp [hraw]
  have hmem : ∀ b ∈ [0, 1, 2, 3, 4, 5],
      (uplinkBlockErasures erasures b).length ≤ UPLINK_BLOCK_ROOTS := by
    intro b hb
    refine hers b ?_
    simp only [List.mem_cons, List.not_mem_nil, or_false] at hb
    rcases hb with h | h | h | h | h | h <;> subst h <;> decide
  have hloop := uplinkLoop_spec decU raw erasures [0, 1, 2, 3, 4, 5] [] 0 hmem
  constructor
  · intro hall
    have hall' : ∀ b ∈ [0, 1, 2, 3, 4, 5],
        0 ≤ (uplinkBlockDecode decU raw erasures b).1 ∧
          (uplinkBlockDecode decU raw erasures b).1 ≤ (UPLINK_BLOCK_ROOTS : Int) := by
      intro b hb
      refine hall b ?_
      simp only [List.mem_cons, List.not_mem_nil, or_false] at hb
      rcases hb with h | h | h | h | h | h <;> subst h <;> decide
    have heq : correctUplink decU raw erasures =
        (true,
          (([0, 1, 2, 3, 4, 5].map fun b =>
            (uplinkBlockDecode decU raw erasures b).2.take UPLINK_BLOCK_DATA_BYTES).flatten),
          (([0, 1, 2, 3, 4, 5].map fun b =>
            (uplinkBlockDecode decU raw erasures b).1.toNat).sum)) := by
      unfold correctUplink
      rw [if_neg hraw', hloop, if_pos hall']
      simp
    refine ⟨by rw [heq, hblocks], ?_⟩
    rw [heq]
    have htake : ∀ b : Nat,
        ((uplinkBlockDecode decU raw erasures b).2.take UPLINK_BLOCK_DATA_BYTES).length =
          UPLINK_BLOCK_DATA_BYTES := by
      intro b
      unfold uplinkBlockDecode
      rw [List.length_take, hlen]
      unfold uplinkBlockData
      simp
      decide
    simp [htake]
    decide
  · rintro ⟨b, hb, hbad⟩
    unfold correctUplink
    rw [if_neg hraw', hloop, if_neg]
    intro hall
    refine hbad (hall b ?_)
    interval_cases b <;> simp

/-- Witness for C3: the identity decoder with zero corrected errors
accepts a concrete all-sevens frame, and a decoder that fails on block 0
rejects it. -/
theorem c3_correct_uplink_witness :
    (correctUplink idDecoder (List.replicate 552 7) []).1 = true ∧
      (correctUplink idDecoder (List.replicate 552 7) []).2.1.length =
        UPLINK_DATA_BYTES ∧
      correctUplink failDecoder (List.replicate 552 7) [] =
        (false, [], 0) := by
  have hrawlen : (List.replicate 552 7).length = UPLINK_BYTES := by
    rw [List.length_replicate]
    rfl
  have hdec0 : ∀ b, (uplinkBlockDecode idDecoder
      (List.replicate 552 7) [] b).1 = 0 := fun _ => rfl
  have hdec1 : (uplinkBlockDecode failDecoder
      (List.replicate 552 7) [] 0).1 = -1 := rfl
  have h1 := (c3_correct_uplink idDecoder (List.replicate 552 7) []
    hrawlen (fun d e => rfl)
    (fun b _ => by unfold uplinkBlockErasures; simp)).1
    (fun b _ => by rw [hdec0]; exact ⟨by decide, by decide⟩)
  have h2 := (c3_correct_uplink failDecoder (List.replicate 552 7) []
    hrawlen (fun d e => rfl)
    (fun b _ => by unfold uplinkBlockErasures; simp)).2
    ⟨0, by decide, by rw [hdec1]; decide⟩
  exact ⟨by rw [h1.1], h1.2, h2⟩

/-- C2: for every 48-byte input whose erasure list fits both codes,
`FEC::CorrectDownlink` decodes with the long code first (on the input with
erasure positions zeroed, erasures re-biased by the long pad) and accepts
as a long frame — returning success, the first 34 bytes, and the long
decoder's error count — exactly when that decode succeeds
(0 ≤ n ≤ 14) and `payload[0] >> 3 ≠ 0`; otherwise it retries the buffer
with the short code, keeping only erasures with position <
`DOWNLINK_SHORT_BYTES` re-biased by the short pad, and accepts as a short
frame — returning the first 18 bytes — exactly when the short decode
succeeds (0 ≤ n ≤ 12) and `payload[0] >> 3 = 0`; in all other cases it
fails. -/
theorem c2_correct_downlink (decL decS : RSDecoder) (raw erasures : List Nat)
    (nL nS : Int) (cL cS : List Nat)
    (hraw : raw.length = DOWNLINK_LONG_BYTES)
    (hlong : erasures.length ≤ DOWNLINK_LONG_ROOTS)
    (hshort : (erasures.filter fun e => e < DOWNLINK_SHORT_BYTES).length ≤
      DOWNLINK_SHORT_ROOTS)
    (hL : decL (erasures.foldl (fun d e => d.set e 0) raw)
      (erasures.map fun e => (e : Int) + (DOWNLINK_LONG_PAD : Int)) = (nL, cL))
    (hS : decS cL ((erasures.filter fun e => e < DOWNLINK_SHORT_BYTES).map
      fun e => (e : Int) + (DOWNLINK_SHORT_PAD : Int)) = (nS, cS)) :
    ((0 ≤ nL ∧ nL ≤ (DOWNLINK_LONG_ROOTS : Int) ∧ (cL.getD 0 0) >>> 3 ≠ 0) →
      correctDownlink decL decS raw erasures =
        (true, cL.take DOWNLINK_LONG_DATA_BYTES, nL.toNat)) ∧
    (¬ (0 ≤ nL ∧ nL ≤ (DOWNLINK_LONG_ROOTS : Int) ∧ (cL.getD 0 0) >>> 3 ≠ 0) →
      ((0 ≤ nS ∧ nS ≤ (DOWNLINK_SHORT_ROOTS : Int) ∧ (cS.getD 0 0) >>> 3 = 0) →
        correctDownlink decL decS raw erasures =
          (true, cS.take DOWNLINK_SHORT_DATA_BYTES, nS.toNat)) ∧
      (¬ (0 ≤ nS ∧ nS ≤ (DOWNLINK_SHORT_ROOTS : Int) ∧ (cS.getD 0 0) >>> 3 = 0) →
        correctDownlink decL decS raw erasures = (false, [], 0))) := by
  have hraw' : ¬ (raw.length ≠ DOWNLINK_LONG_BYTES) := by simp [hraw]
  have hlong' : ¬ (DOWNLINK_LONG_ROOTS < erasures.length) := by omega
  have hshort' :
      ¬ (DOWNLINK_SHORT_ROOTS <
        (erasures.filter fun e => e < DOWNLINK_SHORT_BYTES).length) := by omega
  constructor
  · intro hOK
    unfold correctDownlink
    rw [if_neg hraw', if_neg hlong']
    simp only [hL]
    rw [if_pos hOK]
  · intro hnotL
    constructor
    · intro hOKS
      unfold correctDownlink
      rw [if_neg hraw', if_neg hlong']
      simp only [hL]
      rw [if_neg hnotL, if_neg hshort']
      simp only [hS]
      rw [if_pos hOKS]
    · intro hnotS
      unfold correctDownlink
      rw [if_neg hraw', if_neg hlong']
      simp only [hL]
      rw [if_neg hnotL, if_neg hshort']
      simp only [hS]
      rw [if_neg hnotS]

/-- Witness for C2: the identity long decoder accepts an all-nines frame
as long (header bits nonzero); with a failing long decoder and an
all-zero frame the short retry accepts (header zero); failing both
decoders fails the call. -/
theorem c2_correct_downlink_witness :
    correctDownlink idDecoder idDecoder
        (List.replicate 48 9) [] = (true, List.replicate 34 9, 0) ∧
      correctDownlink failDecoder idDecoder
        (List.replicate 48 0) [] = (true, List.replicate 18 0, 0) ∧
      correctDownlink failDecoder failDecoder
        (List.replicate 48 0) [] = (false, [], 0) := by
  have hlen48 : (List.replicate 48 9).length = DOWNLINK_LONG_BYTES := by
    rw [List.length_replicate]
    rfl
  have hlen48z : (List.replicate 48 0).length = DOWNLINK_LONG_BYTES := by
    rw [List.length_replicate]
    rfl
  refine ⟨?_, ?_, ?_⟩
  · have h := (c2_correct_downlink idDecoder idDecoder (List.replicate 48 9) [] 0 0
      (List.replicate 48 9) (List.replicate 48 9) hlen48 (by decide) (by decide)
      rfl rfl).1 ⟨by decide, by decide, by decide⟩
    rw [h]
    rw [List.take_replicate]
    decide
  · have h := ((c2_correct_downlink failDecoder idDecoder (List.replicate 48 0) [] (-1) 0
      (List.replicate 48 0) (List.replicate 48 0) hlen48z (by decide) (by decide)
      rfl rfl).2 (by decide)).1 ⟨by decide, by decide, by decide⟩
    rw [h]
    rw [List.take_replicate]
    decide
  · exact ((c2_correct_downlink failDecoder failDecoder (List.replicate 48 0) [] (-1) (-1)
      (List.replicate 48 0) (List.replicate 48 0) hlen48z (by decide) (by decide)
      rfl rfl).2 (by decide)).2 (by decide)

theorem findChar_append (c : Char) (xs ys : List Char) (h : c ∉ xs) :
    findChar c (xs ++ c :: ys) = some xs.length := by
  induction xs with
  | nil => simp [findChar]
  | cons x xt ih =>
    have hx : ¬ (x = c) := by
      intro he
      exact h (he ▸ List.mem_cons_self x xt)
    have hm : c ∉ xt := fun hmem => h (List.mem_cons_of_mem x hmem)
    simp [findChar, hx, ih hm]

theorem kvLoop_step (rsF : List Char → Nat) (rssiF : List Char → Float)
    (tF rtF : List Char → Nat) (suffix : List Char) (hne : suffix ≠ [])
    (st : Nat × Float × Nat × Nat) (eqPos semPos : Nat)
    (heq : findChar '=' suffix = some eqPos)
    (hsem : findChar ';' suffix = some semPos) (hges : ¬ semPos < eqPos) :
    kvLoop rsF rssiF tF rtF suffix st =
      kvLoop rsF rssiF tF rtF (suffix.drop (semPos + 1))
        (applyKV rsF rssiF tF rtF (suffix.take eqPos)
          ((suffix.drop (eqPos + 1)).take (semPos - eqPos - 1)) st) := by
  cases suffix with
  | nil => exact absurd rfl hne
  | cons c cs =>
    conv_lhs => unfold kvLoop
    rw [heq, hsem]
    dsimp only
    rw [if_neg hges]

/-- C5 as stated is false on the code: the line `-00;` carries a valid
1-byte hex payload, which is neither 18 nor 34 nor 432 bytes long, yet
`ParseLine` accepts it (returning a message of type INVALID) instead of
rejecting it as a parse error. -/
theorem c5_parse_line_cex :
    ((parseLine zeroNatF zeroFloatF zeroNatF zeroNatF
        ['-', '0', '0', ';']).map fun m => (m.type, m.payload)) =
      some (MessageType.INVALID, [0]) := by
  simp [parseLine, findChar, parseHexPairs, hexvalue, kvLoop, mkRawMessage,
    typeOfPayload, zeroNatF, zeroFloatF]
  decide

/-- C5 (amended): a payload-bearing line ('-' or '+' prefix) with a
well-formed even-length hex payload is accepted for every payload length;
the payload length determines the message type — 18, 34, 432 bytes map to
downlink-short, downlink-long, uplink and every other length yields a
message of type INVALID rather than a parse error; key-value pairs with
unknown keys are silently ignored. -/
theorem c5_parse_line_amended :
    (∀ payload t rs rssi rt, (mkRawMessage payload t rs rssi rt).type =
      (if payload.length = DOWNLINK_SHORT_DATA_BYTES then MessageType.DOWNLINK_SHORT
       else if payload.length = DOWNLINK_LONG_DATA_BYTES then MessageType.DOWNLINK_LONG
       else if payload.length = UPLINK_DATA_BYTES then MessageType.UPLINK
       else MessageType.INVALID)) ∧
    (∀ (rsF : List Char → Nat) (rssiF : List Char → Float) (tF rtF : List Char → Nat)
        (c0 : Char) (hexchars kvpart : List Char) (payload : List Nat),
      c0 = '-' ∨ c0 = '+' → ';' ∉ hexchars → hexchars.length % 2 = 0 →
      parseHexPairs hexchars = some payload →
      parseLine rsF rssiF tF rtF (c0 :: (hexchars ++ ';' :: kvpart)) =
        some (mkRawMessage payload
          (kvLoop rsF rssiF tF rtF kvpart (0, 0.0, 0, 0)).2.2.1
          (kvLoop rsF rssiF tF rtF kvpart (0, 0.0, 0, 0)).1
          (kvLoop rsF rssiF tF rtF kvpart (0, 0.0, 0, 0)).2.1
          (kvLoop rsF rssiF tF rtF kvpart (0, 0.0, 0, 0)).2.2.2)) ∧
    (∀ (rsF : List Char → Nat) (rssiF : List Char → Float) (tF rtF : List Char → Nat)
        (key value rest : List Char) (st : Nat × Float × Nat × Nat),
      '=' ∉ key → ';' ∉ key → ';' ∉ value →
      key ≠ ['r', 's'] → key ≠ ['r', 's', 's', 'i'] → key ≠ ['t'] → key ≠ ['r', 't'] →
      kvLoop rsF rssiF tF rtF (key ++ '=' :: (value ++ ';' :: rest)) st =
        kvLoop rsF rssiF tF rtF rest st) := by
  refine ⟨?_, ?_, ?_⟩
  · intro payload t rs rssi rt
    rfl
  · intro rsF rssiF tF rtF c0 hexchars kvpart payload hc0 hnsemi heven hpar
    have hnl2 : ¬ ((c0 :: (hexchars ++ ';' :: kvpart)).length < 2) := by
      simp only [List.length_cons, List.length_append]
      omega
    have hbang : ¬ (c0 = '!') := by
      rcases hc0 with h | h <;> subst h <;> decide
    have hpm : ¬ (c0 ≠ '-' ∧ c0 ≠ '+') := by
      rcases hc0 with h | h <;> subst h <;> simp
    have hfind : findChar ';' (hexchars ++ ';' :: kvpart) = some hexchars.length :=
      findChar_append ';' hexchars kvpart hnsemi
    have heven' : ¬ (hexchars.length % 2 ≠ 0) := by omega
    have htake : (hexchars ++ ';' :: kvpart).take hexchars.length = hexchars :=
      List.take_left hexchars _
    have hdrop : (hexchars ++ ';' :: kvpart).drop (hexchars.length + 1) = kvpart := by
      have h := List.drop_left (hexchars ++ [';']) kvpart
      have hassoc : (hexchars ++ [';']) ++ kvpart = hexchars ++ ';' :: kvpart := by simp
      have hlen : (hexchars ++ [';']).length = hexchars.length + 1 := by simp
      rw [hassoc, hlen] at h
      exact h
    unfold parseLine
    rw [if_neg hnl2]
    dsimp only
    rw [if_neg hbang, if_neg hpm, hfind]
    dsimp only
    rw [if_neg heven', htake, hpar]
    dsimp only
    rw [hdrop]
  · intro rsF rssiF tF rtF key value rest st hkeq hksem hvsem hk1 hk2 hk3 hk4
    have hfeq : findChar '=' (key ++ '=' :: (value ++ ';' :: rest)) = some key.length :=
      findChar_append '=' key (value ++ ';' :: rest) hkeq
    have hfsem : findChar ';' (key ++ '=' :: (value ++ ';' :: rest)) =
        some (key.length + 1 + value.length) := by
      have hnot : ';' ∉ key ++ '=' :: value := by
        intro hmem
        rcases List.mem_append.mp hmem with h | h
        · exact hksem h
        · rcases List.mem_cons.mp h with h | h
          · exact absurd h (by decide)
          · exact hvsem h
      have h := findChar_append ';' (key ++ '=' :: value) rest hnot
      have hassoc : (key ++ '=' :: value) ++ ';' :: rest =
          key ++ '=' :: (value ++ ';' :: rest) := by simp
      have hlen : (key ++ '=' :: value).length = key.length + 1 + value.length := by
        rw [List.length_append, List.length_cons]
        omega
      rw [hassoc, hlen] at h
      exact h
    have hne : key ++ '=' :: (value ++ ';' :: rest) ≠ [] := by
      cases key <;> simp
    rw [kvLoop_step rsF rssiF tF rtF _ hne st key.length (key.length + 1 + value.length)
      hfeq hfsem (by omega)]
    have htakeKey : (key ++ '=' :: (value ++ ';' :: rest)).take key.length = key :=
      List.take_left key ('=' :: (value ++ ';' :: rest))
    have hdropEq : (key ++ '=' :: (value ++ ';' :: rest)).drop (key.length + 1) =
        value ++ ';' :: rest := by
      have h := List.drop_left (key ++ ['=']) (value ++ ';' :: rest)
      have hassoc : (key ++ ['=']) ++ (value ++ ';' :: rest) =
          key ++ '=' :: (value ++ ';' :: rest) := by simp
      have hlen : (key ++ ['=']).length = key.length + 1 := by simp
      rw [hassoc, hlen] at h
      exact h
    have hdropSem : (key ++ '=' :: (value ++ ';' :: rest)).drop
        (key.length + 1 + value.length + 1) = rest := by
      have h := List.drop_left (key ++ '=' :: (value ++ [';'])) rest
      have hassoc : (key ++ '=' :: (value ++ [';'])) ++ rest =
          key ++ '=' :: (value ++ ';' :: rest) := by simp
      have hlen : (key ++ '=' :: (value ++ [';'])).length =
          key.length + 1 + value.length + 1 := by
        simp only [List.length_append, List.length_cons, List.length_nil]
        omega
      rw [hassoc, hlen] at h
      exact h
    have hidx : key.length + 1 + value.length - key.length - 1 = value.length := by omega
    rw [htakeKey, hdropEq, hidx, hdropSem, List.take_left value (';' :: rest)]
    unfold applyKV
    rw [if_neg hk1, if_neg hk2, if_neg hk3, if_neg hk4]

/-- Witness for C5 (amended): a 2-byte hex payload with an unknown
key-value pair parses to an INVALID-typed message, not a parse error. -/
theorem c5_parse_line_witness :
    parseLine zeroNatF zeroFloatF zeroNatF zeroNatF
        ['-', '0', '0', '0', '0', ';', 'x', '=', '1', ';'] =
      some (mkRawMessage [0, 0] 0 0 0.0 0) ∧
      (mkRawMessage [0, 0] 0 0 0.0 0).type = MessageType.INVALID := by
  have h2 := c5_parse_line_amended.2.1 zeroNatF zeroFloatF zeroNatF zeroNatF
    '-' ['0', '0', '0', '0'] ['x', '=', '1', ';'] [0, 0]
    (Or.inl rfl) (by decide) (by decide) (by decide)
  have h3 := c5_parse_line_amended.2.2 zeroNatF zeroFloatF zeroNatF zeroNatF
    ['x'] ['1'] [] (0, 0.0, 0, 0)
    (by decide) (by decide) (by decide) (by decide) (by decide) (by decide)
    (by decide)
  have hkvnil : kvLoop zeroNatF zeroFloatF zeroNatF zeroNatF
      [] (0, 0.0, 0, 0) = (0, 0.0, 0, 0) := by
    simp [kvLoop]
  simp only [List.cons_append, List.nil_append] at h2 h3
  rw [h2, h3, hkvnil]
  exact ⟨rfl, rfl⟩

theorem foldl_set_length (er raw : List Nat) :
    (er.foldl (fun d e => d.set e 0) raw).length = raw.length := by
  induction er generalizing raw with
  | nil => rfl
  | cons e rest ih => rw [List.foldl_cons, ih, List.length_set]

theorem correctDownlink_true (decL decS : RSDecoder) (raw er p : List Nat) (e : Nat)
    (hL : ∀ d er2, (decL d er2).2.length = d.length)
    (hS : ∀ d er2, (decS d er2).2.length = d.length)
    (h : correctDownlink decL decS raw er = (true, p, e)) :
    p.length = DOWNLINK_LONG_DATA_BYTES ∨ p.length = DOWNLINK_SHORT_DATA_BYTES := by
  simp only [correctDownlink] at h
  split_ifs at h with h1 h2 h3 h4 h5
  · simp at h
  · simp at h
  · -- accepted as long
    have hraw : raw.length = DOWNLINK_LONG_BYTES := not_not.mp h1
    simp only [Prod.mk.injEq] at h
    obtain ⟨-, hp, -⟩ := h
    left
    rw [← hp, List.length_take, hL, foldl_set_length, hraw]
    decide
  · simp at h
  · -- accepted as short
    have hraw : raw.length = DOWNLINK_LONG_BYTES := not_not.mp h1
    simp only [Prod.mk.injEq] at h
    obtain ⟨-, hp, -⟩ := h
    right
    rw [← hp, List.length_take, hS, hL, foldl_set_length, hraw]
    decide
  · simp at h

theorem uplinkLoop_true_length (decU : RSDecoder) (raw er : List Nat)
    (hU : ∀ d er2, (decU d er2).2.length = d.length) :
    ∀ (blocks corrected : List Nat) (total : Nat) (p : List Nat) (e : Nat),
      uplinkLoop decU raw er corrected total blocks = (true, p, e) →
      p.length = corrected.length + UPLINK_BLOCK_DATA_BYTES * blocks.length := by
  intro blocks
  induction blocks with
  | nil =>
    intro corrected total p e h
    simp only [uplinkLoop, Prod.mk.injEq] at h
    obtain ⟨-, hp, -⟩ := h
    rw [← hp]
    simp
  | cons block rest ih =>
    intro corrected total p e h
    simp only [uplinkLoop] at h
    split_ifs at h with h1 h2
    · simp at h
    · have hres : ((uplinkBlockDecode decU raw er block).2).length = UPLINK_BLOCK_BYTES := by
        unfold uplinkBlockDecode
        rw [hU]
        unfold uplinkBlockData
        simp
      rw [ih _ _ _ _ h, List.length_append, List.length_take, hres, List.length_cons]
      have hmin : UPLINK_BLOCK_DATA_BYTES ⊓ UPLINK_BLOCK_BYTES = UPLINK_BLOCK_DATA_BYTES := by
        decide
      rw [hmin]
      ring
    · simp at h

theorem correctUplink_true (decU : RSDecoder) (raw er p : List Nat) (e : Nat)
    (hU : ∀ d er2, (decU d er2).2.length = d.length)
    (h : correctUplink decU raw er = (true, p, e)) :
    p.length = UPLINK_DATA_BYTES := by
  simp only [correctUplink] at h
  split_ifs at h with h1
  · simp at h
  · have := uplinkLoop_true_length decU raw er hU [0, 1, 2, 3, 4, 5] [] 0 p e h
    rw [this]
    decide

theorem bestChoice_eq (o0 o1 : Option DemodMessage) (m : DemodMessage)
    (h : (if o0.isNone && o1.isNone then none
          else if errorsOrBig o0 ≤ errorsOrBig o1 then o0 else o1) = some m) :
    o0 = some m ∨ o1 = some m := by
  cases o0 with
  | none =>
    cases o1 with
    | none => simp at h
    | some b =>
      right
      simp only [Option.isNone_none, Option.isNone_some, Bool.true_and] at h
      rw [if_neg (by decide)] at h
      by_cases he : errorsOrBig (none : Option DemodMessage) ≤ errorsOrBig (some b)
      · rw [if_pos he] at h
        exact absurd h (by simp)
      · rw [if_neg he] at h
        exact h
  | some a =>
    cases o1 with
    | none =>
      left
      simp only [Option.isNone_none, Option.isNone_some, Bool.and_true] at h
      rw [if_neg (by decide)] at h
      by_cases he : errorsOrBig (some a) ≤ errorsOrBig (none : Option DemodMessage)
      · rw [if_pos he] at h
        exact h
      · rw [if_neg he] at h
        exact absurd h (by simp)
    | some b =>
      simp only [Option.isNone_some, Bool.and_self] at h
      rw [if_neg (by decide)] at h
      by_cases he : errorsOrBig (some a) ≤ errorsOrBig (some b)
      · rw [if_pos he] at h
        exact Or.inl h
      · rw [if_neg he] at h
        exact Or.inr h

theorem demodOneDownlink_some (decL decS : RSDecoder) (φ : List Nat) (start : Nat)
    (m : DemodMessage)
    (hL : ∀ d er2, (decL d er2).2.length = d.length)
    (hS : ∀ d er2, (decS d er2).2.length = d.length)
    (h : demodOneDownlink decL decS φ start = some m) :
    m.msgBegin = start ∧
      ((m.payload.length = DOWNLINK_SHORT_DATA_BYTES ∧
          m.msgEnd = m.msgBegin + (SYNC_BITS + DOWNLINK_SHORT_BITS) * 2) ∨
        (m.payload.length = DOWNLINK_LONG_DATA_BYTES ∧
          m.msgEnd = m.msgBegin + (SYNC_BITS + DOWNLINK_LONG_BITS) * 2)) := by
  simp only [demodOneDownlink] at h
  rcases hcor : correctDownlink decL decS
      (demodBits φ (start + SYNC_BITS * 2) DOWNLINK_LONG_BYTES 0 0).1
      (demodBits φ (start + SYNC_BITS * 2) DOWNLINK_LONG_BYTES 0 0).2 with ⟨b, p, e2⟩
  rw [hcor] at h
  dsimp only at h
  cases b with
  | false => simp at h
  | true =>
    rw [if_pos rfl] at h
    have hlen := correctDownlink_true decL decS _ _ _ _ hL hS hcor
    split_ifs at h with hbits
    · obtain rfl := Option.some.inj h
      exact ⟨rfl, Or.inr ⟨hbits, rfl⟩⟩
    · rcases hlen with h34 | h18
      · exact absurd h34 hbits
      · obtain rfl := Option.some.inj h
        exact ⟨rfl, Or.inl ⟨h18, rfl⟩⟩

theorem demodOneUplink_some (decU : RSDecoder) (φ : List Nat) (start : Nat)
    (m : DemodMessage)
    (hU : ∀ d er2, (decU d er2).2.length = d.length)
    (h : demodOneUplink decU φ start = some m) :
    m.msgBegin = start ∧ m.payload.length = UPLINK_DATA_BYTES ∧
      m.msgEnd = m.msgBegin + (SYNC_BITS + UPLINK_BITS) * 2 := by
  simp only [demodOneUplink] at h
  rcases hcor : correctUplink decU
      (demodBits φ (start + SYNC_BITS * 2) UPLINK_BYTES 0 0).1
      (demodBits φ (start + SYNC_BITS * 2) UPLINK_BYTES 0 0).2 with ⟨b, p, e2⟩
  rw [hcor] at h
  dsimp only at h
  cases b with
  | false => simp at h
  | true =>
    rw [if_pos rfl] at h
    have hlen := correctUplink_true decU _ _ _ _ hU hcor
    obtain rfl := Option.some.inj h
    exact ⟨rfl, hlen, rfl⟩

theorem demodBest_some (decL decS decU : RSDecoder) (φ : List Nat) (start : Nat)
    (downlink : Bool) (m : DemodMessage)
    (hL : ∀ d er2, (decL d er2).2.length = d.length)
    (hS : ∀ d er2, (decS d er2).2.length = d.length)
    (hU : ∀ d er2, (decU d er2).2.length = d.length)
    (h : demodBest decL decS decU φ start downlink = some m) :
    (m.msgBegin = start ∨ m.msgBegin = start + 1) ∧ sizeBitsOK m := by
  have hdown : ∀ s (mm : DemodMessage), demodOneDownlink decL decS φ s = some mm →
      mm.msgBegin = s ∧ sizeBitsOK mm := by
    intro s mm hmm
    obtain ⟨hb, hrest⟩ := demodOneDownlink_some decL decS φ s mm hL hS hmm
    exact ⟨hb, Or.imp id Or.inl hrest⟩
  have hup : ∀ s (mm : DemodMessage), demodOneUplink decU φ s = some mm →
      mm.msgBegin = s ∧ sizeBitsOK mm := by
    intro s mm hmm
    obtain ⟨hb, hlen, hend⟩ := demodOneUplink_some decU φ s mm hU hmm
    exact ⟨hb, Or.inr (Or.inr ⟨hlen, hend⟩)⟩
  simp only [demodBest] at h
  have hchoice := bestChoice_eq _ _ _ h
  cases downlink with
  | true =>
    rw [if_pos rfl, if_pos rfl] at hchoice
    rcases hchoice with hc | hc
    · obtain ⟨hb, hs⟩ := hdown _ _ hc
      exact ⟨Or.inl hb, hs⟩
    · obtain ⟨hb, hs⟩ := hdown _ _ hc
      exact ⟨Or.inr hb, hs⟩
  | false =>
    rw [if_neg (by decide), if_neg (by decide)] at hchoice
    rcases hchoice with hc | hc
    · obtain ⟨hb, hs⟩ := hup _ _ hc
      exact ⟨Or.inl hb, hs⟩
    · obtain ⟨hb, hs⟩ := hup _ _ hc
      exact ⟨Or.inr hb, hs⟩

theorem demodLoop_spans (decL decS decU : RSDecoder) (φ : List Nat) (limit : Nat)
    (hL : ∀ d er2, (decL d er2).2.length = d.length)
    (hS : ∀ d er2, (decS d er2).2.length = d.length)
    (hU : ∀ d er2, (decU d er2).2.length = d.length)
    (hlim : limit + (SYNC_BITS + UPLINK_BITS) * 2 ≤ φ.length) :
    ∀ (fuel probe s0 s1 sb : Nat) (acc : List DemodMessage),
      (∀ m ∈ acc, m.msgEnd ≤ φ.length ∧ m.msgBegin ≤ m.msgEnd ∧ sizeBitsOK m) →
      ∀ m ∈ demodLoop decL decS decU φ limit fuel probe s0 s1 sb acc,
        m.msgEnd ≤ φ.length ∧ m.msgBegin ≤ m.msgEnd ∧ sizeBitsOK m := by
  have e1 : SYNC_BITS * 2 = 72 := rfl
  have e2 : (SYNC_BITS + DOWNLINK_SHORT_BITS) * 2 = 552 := rfl
  have e3 : (SYNC_BITS + DOWNLINK_LONG_BITS) * 2 = 840 := rfl
  have e4 : (SYNC_BITS + UPLINK_BITS) * 2 = 8904 := rfl
  rw [e4] at hlim
  intro fuel
  induction fuel with
  | zero =>
    intro probe s0 s1 sb acc hacc m hm
    simp only [demodLoop] at hm
    exact hacc m hm
  | succ fuel ih =>
    intro probe s0 s1 sb acc hacc m hm
    unfold demodLoop at hm
    by_cases hp : limit ≤ probe
    · rw [if_pos hp] at hm
      exact hacc m hm
    · rw [if_neg hp] at hm
      dsimp only at hm
      have hstep : ∀ (st : Nat) (dwn : Bool) (m1 : DemodMessage),
          (st = probe + 2 - 72 ∨ st = probe + 3 - 72) →
          demodBest decL decS decU φ st dwn = some m1 →
          m1.msgEnd ≤ φ.length ∧ m1.msgBegin ≤ m1.msgEnd ∧ sizeBitsOK m1 := by
        intro st dwn m1 hst hbest
        obtain ⟨hor, hsz⟩ := demodBest_some decL decS decU φ st dwn m1 hL hS hU hbest
        refine ⟨?_, ?_, hsz⟩
        · rcases hsz with ⟨-, hE⟩ | ⟨-, hE⟩ | ⟨-, hE⟩
          · rw [e2] at hE; omega
          · rw [e3] at hE; omega
          · rw [e4] at hE; omega
        · rcases hsz with ⟨-, hE⟩ | ⟨-, hE⟩ | ⟨-, hE⟩ <;> omega
      by_cases hsb : sb + 1 < SYNC_BITS
      · rw [if_pos hsb] at hm
        exact ih _ _ _ _ _ hacc m hm
      · rw [if_neg hsb] at hm
        split at hm
        · rename_i m1 heq1
          rcases ite_eq_iff.mp heq1 with ⟨hw, hbest⟩ | ⟨hw, hbest⟩
          · have hP1 := hstep (probe + 2 - SYNC_BITS * 2) true m1 (Or.inl rfl) hbest
            refine ih _ _ _ _ _ ?_ m hm
            intro x hx
            rcases List.mem_append.mp hx with hxa | hxe
            · exact hacc x hxa
            · obtain rfl := List.mem_singleton.mp hxe
              exact hP1
          · simp at hbest
        · rename_i hn1
          split at hm
          · rename_i m1 heq1
            rcases ite_eq_iff.mp heq1 with ⟨hw, hbest⟩ | ⟨hw, hbest⟩
            · have hP1 := hstep (probe + 3 - SYNC_BITS * 2) true m1 (Or.inr rfl) hbest
              refine ih _ _ _ _ _ ?_ m hm
              intro x hx
              rcases List.mem_append.mp hx with hxa | hxe
              · exact hacc x hxa
              · obtain rfl := List.mem_singleton.mp hxe
                exact hP1
            · simp at hbest
          · rename_i hn2
            split at hm
            · rename_i m1 heq1
              rcases ite_eq_iff.mp heq1 with ⟨hw, hbest⟩ | ⟨hw, hbest⟩
              · have hP1 := hstep (probe + 2 - SYNC_BITS * 2) false m1 (Or.inl rfl) hbest
                refine ih _ _ _ _ _ ?_ m hm
                intro x hx
                rcases List.mem_append.mp hx with hxa | hxe
                · exact hacc x hxa
                · obtain rfl := List.mem_singleton.mp hxe
                  exact hP1
              · simp at hbest
            · rename_i hn3
              split at hm
              · rename_i m1 heq1
                rcases ite_eq_iff.mp heq1 with ⟨hw, hbest⟩ | ⟨hw, hbest⟩
                · have hP1 := hstep (probe + 3 - SYNC_BITS * 2) false m1 (Or.inr rfl) hbest
                  refine ih _ _ _ _ _ ?_ m hm
                  intro x hx
                  rcases List.mem_append.mp hx with hxa | hxe
                  · exact hacc x hxa
                  · obtain rfl := List.mem_singleton.mp hxe
                    exact hP1
                · simp at hbest
              · exact ih _ _ _ _ _ hacc m hm

/-- C10: every message returned by `TwoMegDemodulator::Demodulate` has its
sample range wholly inside the input span — `begin ≤ message.begin` holds
by construction in the index model and `message.end ≤ end` is proved — and
its range length equals `(SYNC_BITS + bits) * 2` where `bits` is
`DOWNLINK_SHORT_BITS`, `DOWNLINK_LONG_BITS`, or `UPLINK_BITS` according to
the corrected payload's size (18, 34, or 432 bytes), for all
length-preserving Reed-Solomon decoders. -/
theorem c10_demodulate_spans (decL decS decU : RSDecoder) (φ : List Nat)
    (hL : ∀ d er2, (decL d er2).2.length = d.length)
    (hS : ∀ d er2, (decS d er2).2.length = d.length)
    (hU : ∀ d er2, (decU d er2).2.length = d.length) :
    (demodulate decL decS decU φ).all (spanOK φ.length) = true := by
  rw [List.all_eq_true]
  intro m hm
  have e4 : (SYNC_BITS + UPLINK_BITS) * 2 = 8904 := rfl
  have hP : m.msgEnd ≤ φ.length ∧ m.msgBegin ≤ m.msgEnd ∧ sizeBitsOK m := by
    unfold demodulate at hm
    split_ifs at hm with hlen
    · simp at hm
    · refine demodLoop_spans decL decS decU φ
        (φ.length - (SYNC_BITS + UPLINK_BITS) * 2) hL hS hU ?_
        (φ.length + 1) 0 0 0 0 [] (by intro x hx; simp at hx) m hm
      rw [e4] at hlen ⊢
      omega
  obtain ⟨h1, h2, h3⟩ := hP
  unfold spanOK
  unfold sizeBitsOK at h3
  simp only [Bool.and_eq_true, Bool.or_eq_true, decide_eq_true_eq]
  exact ⟨⟨h1, h2⟩, by tauto⟩

/-- Witness for C10 with the trivial decoders and an empty phase buffer. -/
theorem c10_demodulate_spans_witness :
    (demodulate idDecoder idDecoder idDecoder []).all
      (spanOK ([] : List Nat).length) = true :=
  c10_demodulate_spans idDecoder idDecoder idDecoder []
    (fun d e => rfl) (fun d e => rfl) (fun d e => rfl)
